import Mathlib

/-!
Shallow embedding of the arithmetic-expression calculator (Rust sources
src/parser.rs, src/rpn.rs, src/error.rs, src/main.rs).

Modelling conventions:
* Rust `f64` values are modelled as exact rationals (`ℚ`).  The numeric
  buffers the tokenizer builds contain only ASCII digits and dots, so their
  parsed values are exact finite decimals.
* Rust `Vec` used as a stack is a Lean `List` with the head as the stack top;
  the output queue (`VecDeque` with `push_back`) is a `List` appended at the
  end.
* Fallible Rust functions returning `Result<T, CalcError>` become
  `Except CalcError T`.
-/

/-- The error enum from src/error.rs (`CalcError`). -/
inductive CalcError where
  | InvalidToken (s : String)
  | UnmatchedParens
  | DivideByZero
  | InvalidExpression (s : String)
deriving DecidableEq, Repr

/-- The token enum.  src/rpn.rs matches on `Token::UnaryMinus` and
`Token::Power`, so the enum the crate compiles against must contain them;
the copy of src/parser.rs in the tree is a stale version that declares only
the other seven variants (and whose tokenizer therefore never produces
`UnaryMinus` or `Power`). -/
inductive Token where
  | Number (q : ℚ)
  | Plus
  | Minus
  | Multiply
  | Divide
  | Power
  | UnaryMinus
  | LParen
  | RParen
deriving DecidableEq, Repr

/-- Precedence ranks, from `Token::precedence` in src/parser.rs: numbers 0,
parentheses 1, `+ -` 2, `* /` 3.  The `UnaryMinus` and `Power` arms are
missing from the src copy of parser.rs (src/rpn.rs pushes both onto the
operator stack and compares precedences there).  Modelled from the spec:
unary minus and `^` have rank 4, the highest. -/
def Token.precedence : Token → Nat
  | .Number _ => 0
  | .LParen => 1
  | .RParen => 1
  | .Plus => 2
  | .Minus => 2
  | .Multiply => 3
  | .Divide => 3
  | .UnaryMinus => 4
  | .Power => 4

/-- The Rust `{:?}` (derived Debug) rendering of a token, used when
src/rpn.rs formats error messages.  For `Number` the Rust Debug output
prints the float; the claims never exercise that case, and we render the
rational with `toString`. -/
def Token.reprName : Token → String
  | .Number q => "Number(" ++ toString q ++ ")"
  | .Plus => "Plus"
  | .Minus => "Minus"
  | .Multiply => "Multiply"
  | .Divide => "Divide"
  | .Power => "Power"
  | .UnaryMinus => "UnaryMinus"
  | .LParen => "LParen"
  | .RParen => "RParen"

/-- `get_token` from src/parser.rs: maps a single character to an operator
or parenthesis token; any other character is an `InvalidToken` error carrying
`c.to_string()`.  Note: there is no arm for the caret character. -/
def get_token (c : Char) : Except CalcError Token :=
  if c = '+' then .ok .Plus
  else if c = '-' then .ok .Minus
  else if c = '*' then .ok .Multiply
  else if c = '/' then .ok .Divide
  else if c = '(' then .ok .LParen
  else if c = ')' then .ok .RParen
  else .error (.InvalidToken (String.mk [c]))

/-- Interprets a list of ASCII digit characters as a natural number. -/
def digitsToNat (l : List Char) : Nat :=
  l.foldl (fun acc c => acc * 10 + (c.toNat - 48)) 0

/-- Exact-rational model of Rust `str::parse::<f64>` on the strings the
tokenizer ever feeds it (buffers built only from ASCII digits and dots):
the string parses iff it is nonempty, contains at most one dot and at least
one digit (so a bare dot and multi-dot strings fail), and the model keeps
the exact decimal value.  The real parse rounds that value to the nearest
double and saturates out-of-range magnitudes to infinity rather than
failing; the rational model keeps the exact value instead, and the C4
theorem uses that exact value to exhibit an input whose real parse result
is infinite.  Strings with any other character are rejected; the tokenizer
never produces such buffers. -/
def parseDecimal (l : List Char) : Option ℚ :=
  if l.all (fun c => c.isDigit || c = '.') && l.any (fun c => c.isDigit)
      && l.count '.' ≤ 1 then
    let intPart := l.takeWhile (fun c => c ≠ '.')
    let fracPart := (l.dropWhile (fun c => c ≠ '.')).drop 1
    some ((digitsToNat intPart : ℚ)
      + (digitsToNat fracPart : ℚ) / (10 : ℚ) ^ fracPart.length)
  else none

/-- `get_fnum` from src/parser.rs: parse the numeric buffer, mapping a parse
failure to `InvalidToken` carrying the offending substring.  (The source
trims first; buffers contain no whitespace, so the trim is a no-op.) -/
def get_fnum (l : List Char) : Except CalcError ℚ :=
  match parseDecimal l with
  | some q => .ok q
  | none => .error (.InvalidToken (String.mk l))

/-- The buffer flush in `tokenize` (src/parser.rs): if the numeric buffer is
nonempty, parse it and append a `Number` token. -/
def flushNum (buf : List Char) (acc : List Token) :
    Except CalcError (List Token) :=
  if buf.isEmpty then .ok acc
  else
    match get_fnum buf with
    | .error e => .error e
    | .ok q => .ok (acc ++ [Token.Number q])

/-- The character loop of `tokenize` from src/parser.rs.  Digits and dots
accumulate in `buf`; any other character first flushes the buffer, then
whitespace is skipped and everything else goes through `get_token`. -/
def tokenizeAux : List Char → List Char → List Token →
    Except CalcError (List Token)
  | [], buf, acc => flushNum buf acc
  | c :: cs, buf, acc =>
    if c.isDigit || c = '.' then tokenizeAux cs (buf ++ [c]) acc
    else
      match flushNum buf acc with
      | .error e => .error e
      | .ok acc2 =>
        if c.isWhitespace then tokenizeAux cs [] acc2
        else
          match get_token c with
          | .error e => .error e
          | .ok t => tokenizeAux cs [] (acc2 ++ [t])

/-- `tokenize` from src/parser.rs. -/
def tokenize (input : String) : Except CalcError (List Token) :=
  tokenizeAux input.data [] []

/-- Balance contribution of one token in `validate_parens`. -/
def parenDelta : Token → ℤ
  | .LParen => 1
  | .RParen => -1
  | _ => 0

/-- The loop of `validate_parens` from src/parser.rs, with the running
balance made explicit: each token updates the balance, a negative balance
fails immediately, and a nonzero final balance fails at the end. -/
def validateAux : List Token → ℤ → Except CalcError Unit
  | [], bal => if bal = 0 then .ok () else .error .UnmatchedParens
  | t :: rest, bal =>
    let bal2 := bal + parenDelta t
    if bal2 < 0 then .error .UnmatchedParens else validateAux rest bal2

/-- `validate_parens` from src/parser.rs. -/
def validate_parens (tokens : List Token) : Except CalcError Unit :=
  validateAux tokens 0

/-- The `Token::RParen` arm of `to_rpn` (src/rpn.rs): pop operators into the
output; a popped `LParen` stops the loop and is discarded; after emitting a
non-`LParen` operator, an empty remaining stack is an `UnmatchedParens`
error.  If the stack is empty on entry the `while let` loop body never runs
and no error is raised.  Returns the new output and remaining stack. -/
def rparenLoop : List Token → List Token →
    Except CalcError (List Token × List Token)
  | [], out => .ok (out, [])
  | top :: rest, out =>
    if top = Token.LParen then .ok (out, rest)
    else if rest.isEmpty then .error CalcError.UnmatchedParens
    else rparenLoop rest (out ++ [top])

/-- The binary-operator `while` loop of `to_rpn` (src/rpn.rs): pop stack
tops with precedence ≥ `p` into the emitted list, stopping at the first top
with smaller precedence.  Returns (emitted, remaining stack). -/
def popGE (p : Nat) : List Token → List Token × List Token
  | [] => ([], [])
  | top :: rest =>
    if p ≤ top.precedence then
      let pr := popGE p rest
      (top :: pr.1, pr.2)
    else ([], top :: rest)

/-- The final drain of `to_rpn` (src/rpn.rs): pop all remaining operators
into the output, failing with `UnmatchedParens` on a leftover `LParen`. -/
def drain : List Token → List Token → Except CalcError (List Token)
  | [], out => .ok out
  | op :: rest, out =>
    if op = Token.LParen then .error CalcError.UnmatchedParens
    else drain rest (out ++ [op])

/-- The token loop of `to_rpn` from src/rpn.rs: numbers go to the output;
`LParen`, `UnaryMinus` and `Power` are pushed onto the operator stack;
`RParen` runs `rparenLoop`; the four binary operators run the
precedence-≥ pop loop and are then pushed. -/
def toRpnAux : List Token → List Token → List Token →
    Except CalcError (List Token)
  | [], out, ops => drain ops out
  | Token.Number q :: rest, out, ops =>
    toRpnAux rest (out ++ [Token.Number q]) ops
  | Token.LParen :: rest, out, ops => toRpnAux rest out (Token.LParen :: ops)
  | Token.UnaryMinus :: rest, out, ops =>
    toRpnAux rest out (Token.UnaryMinus :: ops)
  | Token.Power :: rest, out, ops => toRpnAux rest out (Token.Power :: ops)
  | Token.RParen :: rest, out, ops =>
    match rparenLoop ops out with
    | .error e => .error e
    | .ok (out2, ops2) => toRpnAux rest out2 ops2
  | t :: rest, out, ops =>
    let pr := popGE t.precedence ops
    toRpnAux rest (out ++ pr.1) (t :: pr.2)

/-- `to_rpn` from src/rpn.rs (shunting-yard). -/
def to_rpn (tokens : List Token) : Except CalcError (List Token) :=
  toRpnAux tokens [] []

/-- Models Rust `f64::powf` in the exact-rational embedding: integer
exponents are computed exactly with `zpow`; a non-integer exponent has an
irrational result in general and is mapped to 0 here.  No claim depends on
the non-integer branch, nor on `0 ^ negative` (where IEEE-754 gives
infinity while `zpow` on `ℚ` gives 0). -/
def powf (a b : ℚ) : ℚ :=
  if b.den = 1 then a ^ b.num else 0

/-- One step of `eval_rpn` (src/rpn.rs) on the value stack (head = top).
A number is pushed; `UnaryMinus` pops one operand (error if none) and pushes
its negation; every other token pops `b` then `a` (error if fewer than two
values) and pushes the result, where `Divide` checks `b = 0` first and the
leftover catch-all (reachable only for parentheses) is an
`InvalidExpression` error. -/
def evalStep (stack : List ℚ) (t : Token) : Except CalcError (List ℚ) :=
  match t with
  | .Number q => .ok (q :: stack)
  | .UnaryMinus =>
    match stack with
    | [] => .error (.InvalidExpression "Унарный минус требует одного операнда")
    | x :: rest => .ok ((-x) :: rest)
  | _ =>
    match stack with
    | b :: a :: rest =>
      match t with
      | .Power => .ok (powf a b :: rest)
      | .Plus => .ok ((a + b) :: rest)
      | .Minus => .ok ((a - b) :: rest)
      | .Multiply => .ok ((a * b) :: rest)
      | .Divide =>
        if b = 0 then .error .DivideByZero else .ok ((a / b) :: rest)
      | _ =>
        .error (.InvalidExpression ("Неподдерживаемый токен: " ++ t.reprName))
    | _ =>
      .error (.InvalidExpression
        ("Недостаточно операндов для операции '" ++ t.reprName ++ "'"))

/-- The token loop of `eval_rpn` (src/rpn.rs): fold `evalStep` over the
postfix sequence, starting from an empty value stack. -/
def evalGo : List Token → List ℚ → Except CalcError (List ℚ)
  | [], stack => .ok stack
  | t :: rest, stack =>
    match evalStep stack t with
    | .error e => .error e
    | .ok stack2 => evalGo rest stack2

/-- `eval_rpn` from src/rpn.rs: run the loop, then inspect the final stack
exactly as the source's `match (stack.pop(), stack.is_empty())` does. -/
def eval_rpn (rpn : List Token) : Except CalcError ℚ :=
  match evalGo rpn [] with
  | .error e => .error e
  | .ok [x] => .ok x
  | .ok (_ :: _ :: _) => .error (.InvalidExpression "В стеке остались лишние числа")
  | .ok [] => .error (.InvalidExpression "Стек пуст после вычислений")

/-- `run_repl` from src/main.rs: the composed pipeline
tokenize → validate_parens → to_rpn → eval_rpn. -/
def run_repl (input : String) : Except CalcError ℚ := do
  let tokens ← tokenize input
  let _ ← validate_parens tokens
  let rpn ← to_rpn tokens
  eval_rpn rpn

/-- A 310-character decimal literal: one followed by 309 zeros.  Its exact
value 1e309 lies far above the largest finite IEEE-754 double. -/
def overflowLiteral : String := "1000000000000000000000000000000000000000000000000000000000000000000000000000000000000000000000000000000000000000000000000000000000000000000000000000000000000000000000000000000000000000000000000000000000000000000000000000000000000000000000000000000000000000000000000000000000000000000000000000000000000000000000"

/-- The character list of `overflowLiteral`. -/
def overflowChars : List Char := ['1', '0', '0', '0', '0', '0', '0', '0', '0', '0', '0', '0', '0', '0', '0', '0', '0', '0', '0', '0', '0', '0', '0', '0', '0', '0', '0', '0', '0', '0', '0', '0', '0', '0', '0', '0', '0', '0', '0', '0', '0', '0', '0', '0', '0', '0', '0', '0', '0', '0', '0', '0', '0', '0', '0', '0', '0', '0', '0', '0', '0', '0', '0', '0', '0', '0', '0', '0', '0', '0', '0', '0', '0', '0', '0', '0', '0', '0', '0', '0', '0', '0', '0', '0', '0', '0', '0', '0', '0', '0', '0', '0', '0', '0', '0', '0', '0', '0', '0', '0', '0', '0', '0', '0', '0', '0', '0', '0', '0', '0', '0', '0', '0', '0', '0', '0', '0', '0', '0', '0', '0', '0', '0', '0', '0', '0', '0', '0', '0', '0', '0', '0', '0', '0', '0', '0', '0', '0', '0', '0', '0', '0', '0', '0', '0', '0', '0', '0', '0', '0', '0', '0', '0', '0', '0', '0', '0', '0', '0', '0', '0', '0', '0', '0', '0', '0', '0', '0', '0', '0', '0', '0', '0', '0', '0', '0', '0', '0', '0', '0', '0', '0', '0', '0', '0', '0', '0', '0', '0', '0', '0', '0', '0', '0', '0', '0', '0', '0', '0', '0', '0', '0', '0', '0', '0', '0', '0', '0', '0', '0', '0', '0', '0', '0', '0', '0', '0', '0', '0', '0', '0', '0', '0', '0', '0', '0', '0', '0', '0', '0', '0', '0', '0', '0', '0', '0', '0', '0', '0', '0', '0', '0', '0', '0', '0', '0', '0', '0', '0', '0', '0', '0', '0', '0', '0', '0', '0', '0', '0', '0', '0', '0', '0', '0', '0', '0', '0', '0', '0', '0', '0', '0', '0', '0', '0', '0', '0', '0', '0', '0', '0', '0', '0', '0', '0', '0', '0', '0', '0', '0', '0', '0', '0', '0', '0', '0', '0', '0', '0', '0', '0', '0', '0', '0', '0', '0', '0', '0', '0', '0']

deriving instance DecidableEq for Except

section ClaimTheorems

/-- Helper: "1 / 0" tokenizes to number, divide, number. -/
theorem tokenize_one_div_zero :
    tokenize "1 / 0" = .ok [Token.Number 1, Token.Divide, Token.Number 0] := by
  show Except.ok ([Token.Number ((1 : ℚ) + 0 / 10 ^ 0), Token.Divide]
    ++ [Token.Number ((0 : ℚ) + 0 / 10 ^ 0)]) = _
  norm_num

/-- Helper: the full pipeline on "1 / 0" fails with `DivideByZero`. -/
theorem run_repl_one_div_zero :
    run_repl "1 / 0" = .error CalcError.DivideByZero := by
  simp [run_repl, tokenize_one_div_zero]
  decide

/-- C1: the spec claims the composed pipeline maps "-5" to `Ok(-5.0)` and
"-(-4)" to `Ok(4.0)` (and the repository's own run_repl tests assert the
same), but the tokenizer in the src copy of parser.rs has no unary-minus
handling: it emits a binary `Minus`, so evaluation runs out of operands and
both inputs fail with `InvalidExpression`. -/
theorem c1_unary_minus_pipeline_fails :
    run_repl "-5" =
      .error (.InvalidExpression "Недостаточно операндов для операции 'Minus'")
    ∧ run_repl "-(-4)" =
      .error (.InvalidExpression "Недостаточно операндов для операции 'Minus'") := by
  constructor <;> rfl

/-- C2: the spec claims the pipeline maps "2^3^2" to `Ok(512.0)` and
"(2^3)^2" to `Ok(64.0)` (as do the repository's run_repl tests), but
`get_token` in the src copy of parser.rs has no arm for the caret, so both
inputs already fail at tokenization with `InvalidToken("^")`. -/
theorem c2_power_pipeline_fails :
    run_repl "2^3^2" = .error (.InvalidToken "^")
    ∧ run_repl "(2^3)^2" = .error (.InvalidToken "^") := by
  constructor <;> rfl

/-- C3 counterexample: an `RParen` arriving while the operator stack is
already empty does NOT fail with `UnmatchedParens` — the `while let` loop
body never runs, the `RParen` is silently dropped, and `to_rpn` succeeds. -/
theorem c3_rparen_empty_stack_not_error :
    to_rpn [Token.RParen] = .ok []
    ∧ to_rpn [Token.RParen] ≠ .error CalcError.UnmatchedParens := by
  have h1 : to_rpn [Token.RParen] = .ok [] := rfl
  exact ⟨h1, by simp [h1]⟩

/-- C6: after `eval_rpn`'s token loop consumes all tokens without error,
the final stack decides the result exactly as the source's
`match (stack.pop(), stack.is_empty())`: a singleton stack returns its
element, two or more values fail with the leftover-values message, and an
empty stack fails with the empty-stack message. -/
theorem c6_eval_rpn_final_stack (rpn : List Token) (st : List ℚ)
    (h : evalGo rpn [] = .ok st) :
    eval_rpn rpn =
      match st with
      | [x] => .ok x
      | _ :: _ :: _ =>
        .error (.InvalidExpression "В стеке остались лишние числа")
      | [] => .error (.InvalidExpression "Стек пуст после вычислений") := by
  cases st with
  | nil => simp [eval_rpn, h]
  | cons x rest =>
    cases rest with
    | nil => simp [eval_rpn, h]
    | cons y rest2 => simp [eval_rpn, h]

/-- C6 witness: concrete postfix sequences leaving two values, one value,
and no value on the stack. -/
theorem c6_eval_rpn_final_stack_witness :
    eval_rpn [Token.Number 1, Token.Number 2] =
      .error (.InvalidExpression "В стеке остались лишние числа")
    ∧ eval_rpn [Token.Number 7] = .ok 7
    ∧ eval_rpn [] = .error (.InvalidExpression "Стек пуст после вычислений") := by
  refine ⟨?_, ?_, ?_⟩
  · exact c6_eval_rpn_final_stack _ [2, 1] (by rfl)
  · exact c6_eval_rpn_final_stack _ [7] (by rfl)
  · exact c6_eval_rpn_final_stack _ [] (by rfl)

/-- C7: applying `Divide` with right operand `b` (stack top) and left
operand `a` fails with `DivideByZero` exactly when `b = 0`, performing the
division only otherwise; and the full pipeline on "1 / 0" fails with
`DivideByZero`. -/
theorem c7_divide_by_zero (a b : ℚ) (rest : List ℚ) :
    (evalStep (b :: a :: rest) Token.Divide = .error CalcError.DivideByZero
      ↔ b = 0)
    ∧ evalStep (b :: a :: rest) Token.Divide =
        (if b = 0 then .error CalcError.DivideByZero
         else .ok ((a / b) :: rest))
    ∧ run_repl "1 / 0" = .error CalcError.DivideByZero := by
  refine ⟨?_, ?_, run_repl_one_div_zero⟩
  · by_cases hb : b = 0 <;> simp [evalStep, hb]
  · by_cases hb : b = 0 <;> simp [evalStep, hb]

/-- C10: numeric literals with a leading or a trailing dot tokenize
successfully (".5" to `Number 0.5`, "5." to `Number 5.0`), while a lone dot
fails with `InvalidToken(".")`. -/
theorem c10_leading_trailing_dot :
    tokenize ".5" = .ok [Token.Number (1 / 2)]
    ∧ tokenize "5." = .ok [Token.Number 5]
    ∧ tokenize "." = .error (.InvalidToken ".") := by
  refine ⟨?_, ?_, by rfl⟩
  · simp [tokenize, tokenizeAux, flushNum, get_fnum, parseDecimal, digitsToNat]
    norm_num
  · show flushNum ['5', '.'] [] = .ok [Token.Number 5]
    simp [flushNum, get_fnum, parseDecimal, digitsToNat]

end ClaimTheorems

/-- Helper: `rparenLoop` on a stack whose first `LParen` is preceded by the
operators `pre` emits exactly `pre` and resumes with the stack below the
`LParen`. -/
theorem rparenLoop_finds_lparen (pre : List Token) :
    ∀ (post out : List Token), Token.LParen ∉ pre →
      rparenLoop (pre ++ Token.LParen :: post) out = .ok (out ++ pre, post) := by
  induction pre with
  | nil => intro post out _; simp [rparenLoop]
  | cons p pre ih =>
    intro post out hpre
    have hp : p ≠ Token.LParen := fun h => hpre (h ▸ List.mem_cons_self p pre)
    have hne : ¬ (pre ++ Token.LParen :: post).isEmpty = true := by
      simp [List.isEmpty_iff]
    have hrec := ih post (out ++ [p])
      (fun h => hpre (List.mem_cons_of_mem p h))
    simp only [List.cons_append, rparenLoop, hp, hne, if_false, ite_false]
    simpa using hrec

/-- Helper: `rparenLoop` on a nonempty stack containing no `LParen` fails
with `UnmatchedParens`. -/
theorem rparenLoop_no_lparen (ops : List Token) :
    ∀ out : List Token, Token.LParen ∉ ops → ops ≠ [] →
      rparenLoop ops out = .error CalcError.UnmatchedParens := by
  induction ops with
  | nil => intro out _ hne; exact absurd rfl hne
  | cons top rest ih =>
    intro out hmem _
    have ht : top ≠ Token.LParen := fun h => hmem (h ▸ List.mem_cons_self top rest)
    have hrest : Token.LParen ∉ rest := fun h => hmem (List.mem_cons_of_mem top h)
    by_cases hr : rest = []
    · subst hr; simp [rparenLoop, ht]
    · have hne : ¬ rest.isEmpty = true := by simp [List.isEmpty_iff, hr]
      simp only [rparenLoop, ht, hne, if_false, ite_false]
      exact ih (out ++ [top]) hrest hr

/-- Helper: the binary-operator pop loop is exactly takeWhile/dropWhile on
the precedence-≥ test. -/
theorem popGE_eq (p : Nat) (ops : List Token) :
    popGE p ops =
      (ops.takeWhile (fun top => decide (p ≤ top.precedence)),
       ops.dropWhile (fun top => decide (p ≤ top.precedence))) := by
  induction ops with
  | nil => simp [popGE]
  | cons top rest ih =>
    by_cases h : p ≤ top.precedence
    · simp [popGE, h, List.takeWhile_cons, List.dropWhile_cons, ih]
    · simp [popGE, h, List.takeWhile_cons, List.dropWhile_cons]

/-- C3 (amended): on an `RParen`, `to_rpn` runs `rparenLoop`, which
(a) silently succeeds without error when the operator stack is already
empty (the `RParen` is dropped), (b) pops exactly the operators above the
first `LParen` into the output and discards that `LParen`, and (c) fails
with `UnmatchedParens` when a nonempty stack contains no `LParen` (it
empties by popping before an `LParen` is found). -/
theorem c3_rparen_loop_spec (ops out : List Token) :
    (ops = [] → rparenLoop ops out = .ok (out, []))
    ∧ (∀ pre post, ops = pre ++ Token.LParen :: post → Token.LParen ∉ pre →
        rparenLoop ops out = .ok (out ++ pre, post))
    ∧ (Token.LParen ∉ ops → ops ≠ [] →
        rparenLoop ops out = .error CalcError.UnmatchedParens)
    ∧ (∀ rest, toRpnAux (Token.RParen :: rest) out ops =
        match rparenLoop ops out with
        | .error e => .error e
        | .ok (out2, ops2) => toRpnAux rest out2 ops2) := by
  refine ⟨?_, ?_, ?_, ?_⟩
  · intro h; subst h; rfl
  · intro pre post hsplit hpre; subst hsplit
    exact rparenLoop_finds_lparen pre post out hpre
  · intro hmem hne; exact rparenLoop_no_lparen ops out hmem hne
  · intro rest; rfl

/-- C3 witness: concrete instances of the three `rparenLoop` behaviors. -/
theorem c3_rparen_loop_spec_witness :
    rparenLoop [] [Token.Number 1] = .ok ([Token.Number 1], [])
    ∧ rparenLoop [Token.Plus, Token.LParen, Token.Minus] []
        = .ok ([Token.Plus], [Token.Minus])
    ∧ rparenLoop [Token.Plus] [] = .error CalcError.UnmatchedParens := by
  refine ⟨?_, ?_, ?_⟩
  · exact (c3_rparen_loop_spec [] [Token.Number 1]).1 rfl
  · exact (c3_rparen_loop_spec [Token.Plus, Token.LParen, Token.Minus] []).2.1
      [Token.Plus] [Token.Minus] rfl (by decide)
  · exact (c3_rparen_loop_spec [Token.Plus] []).2.2.1 (by decide) (by decide)

/-- C8: an incoming binary operator (`+ - * /`) first pops every stack top
with precedence ≥ its own into the output (takeWhile on the ≥ test), then is
pushed onto the remaining stack; with `+ -` sharing rank 2 and `* /` rank 3
this yields left-associativity, e.g. the tokens of 1 - 2 - 3 convert to the
postfix sequence 1 2 - 3 -. -/
theorem c8_binary_ops_left_assoc (t : Token)
    (h : t = Token.Plus ∨ t = Token.Minus ∨ t = Token.Multiply
      ∨ t = Token.Divide) :
    (∀ rest out ops, toRpnAux (t :: rest) out ops =
        toRpnAux rest
          (out ++ ops.takeWhile (fun top => decide (t.precedence ≤ top.precedence)))
          (t :: ops.dropWhile (fun top => decide (t.precedence ≤ top.precedence))))
    ∧ to_rpn [Token.Number 1, Token.Minus, Token.Number 2, Token.Minus,
        Token.Number 3]
      = .ok [Token.Number 1, Token.Number 2, Token.Minus, Token.Number 3,
          Token.Minus] := by
  constructor
  · intro rest out ops
    rcases h with h | h | h | h <;> subst h <;>
      simp only [toRpnAux, popGE_eq]
  · rfl

/-- C8 witness: the pop-then-push step at `Minus` over a stack holding
`Plus` above `LParen`, plus the left-associativity example. -/
theorem c8_binary_ops_left_assoc_witness :
    toRpnAux [Token.Minus] [Token.Number 1] [Token.Plus, Token.LParen]
      = toRpnAux []
          ([Token.Number 1] ++ [Token.Plus, Token.LParen].takeWhile
            (fun top => decide (Token.Minus.precedence ≤ top.precedence)))
          (Token.Minus :: [Token.Plus, Token.LParen].dropWhile
            (fun top => decide (Token.Minus.precedence ≤ top.precedence)))
    ∧ to_rpn [Token.Number 1, Token.Minus, Token.Number 2, Token.Minus,
        Token.Number 3]
      = .ok [Token.Number 1, Token.Number 2, Token.Minus, Token.Number 3,
          Token.Minus] := by
  have h := c8_binary_ops_left_assoc Token.Minus (Or.inr (Or.inl rfl))
  exact ⟨h.1 [] [Token.Number 1] [Token.Plus, Token.LParen], h.2⟩

/-- Helper: everything the binary pop loop emits comes from the stack and
has precedence ≥ the threshold; the remaining stack is a subset too. -/
theorem popGE_mem (p : Nat) (ops : List Token) :
    (∀ x ∈ (popGE p ops).1, x ∈ ops ∧ p ≤ x.precedence)
    ∧ (∀ x ∈ (popGE p ops).2, x ∈ ops) := by
  induction ops with
  | nil => simp [popGE]
  | cons top rest ih =>
    by_cases h : p ≤ top.precedence
    · refine ⟨?_, ?_⟩
      · intro x hx
        rw [popGE] at hx
        simp only [h, if_true, List.mem_cons] at hx
        rcases hx with hx | hx
        · exact ⟨by simp [hx], hx ▸ h⟩
        · obtain ⟨h1, h2⟩ := ih.1 x hx
          exact ⟨List.mem_cons_of_mem top h1, h2⟩
      · intro x hx
        rw [popGE] at hx
        simp only [h, if_true] at hx
        exact List.mem_cons_of_mem top (ih.2 x hx)
    · constructor
      · intro x hx; rw [popGE] at hx; simp [h] at hx
      · intro x hx; rw [popGE] at hx; simp only [h, if_false, ite_false] at hx
        exact hx

/-- Helper: `rparenLoop` preserves the paren-freeness invariants: the new
output gains only non-paren operators from the stack, and the remaining
stack is a suffix of the old one. -/
theorem rparenLoop_no_parens (ops : List Token) :
    ∀ out out2 ops2,
      Token.RParen ∉ ops → Token.LParen ∉ out → Token.RParen ∉ out →
      rparenLoop ops out = .ok (out2, ops2) →
      Token.LParen ∉ out2 ∧ Token.RParen ∉ out2 ∧ Token.RParen ∉ ops2 := by
  induction ops with
  | nil =>
    intro out out2 ops2 _ hL hR h
    rw [rparenLoop] at h
    injection h with h2
    injection h2 with h3 h4
    subst h3; subst h4
    exact ⟨hL, hR, by simp⟩
  | cons top rest ih =>
    intro out out2 ops2 hops hL hR h
    have htopR : top ≠ Token.RParen :=
      fun he => hops (he ▸ List.mem_cons_self top rest)
    have hrest : Token.RParen ∉ rest :=
      fun he => hops (List.mem_cons_of_mem top he)
    by_cases ht : top = Token.LParen
    · rw [rparenLoop] at h
      simp only [ht, if_true, ite_true] at h
      injection h with h2
      injection h2 with h3 h4
      subst h3; subst h4
      exact ⟨hL, hR, hrest⟩
    · rw [rparenLoop] at h
      simp only [ht, if_false, ite_false] at h
      by_cases hr : rest.isEmpty = true
      · simp [hr] at h
      · simp only [hr, if_false, ite_false] at h
        refine ih (out ++ [top]) out2 ops2 hrest ?_ ?_ h
        · intro he
          rcases List.mem_append.mp he with he | he
          · exact hL he
          · exact ht (List.mem_singleton.mp he).symm
        · intro he
          rcases List.mem_append.mp he with he | he
          · exact hR he
          · exact htopR (List.mem_singleton.mp he).symm

/-- Helper: the final drain emits only the stack's operators, so a stack
without `RParen` and a paren-free output give a paren-free result. -/
theorem drain_no_parens (ops : List Token) :
    ∀ out res,
      Token.RParen ∉ ops → Token.LParen ∉ out → Token.RParen ∉ out →
      drain ops out = .ok res →
      Token.LParen ∉ res ∧ Token.RParen ∉ res := by
  induction ops with
  | nil =>
    intro out res _ hL hR h
    rw [drain] at h
    injection h with h2
    subst h2
    exact ⟨hL, hR⟩
  | cons op rest ih =>
    intro out res hops hL hR h
    have hopR : op ≠ Token.RParen :=
      fun he => hops (he ▸ List.mem_cons_self op rest)
    have hrest : Token.RParen ∉ rest :=
      fun he => hops (List.mem_cons_of_mem op he)
    by_cases hLp : op = Token.LParen
    · rw [drain] at h; simp [hLp] at h
    · rw [drain] at h
      simp only [hLp, if_false, ite_false] at h
      refine ih (out ++ [op]) res hrest ?_ ?_ h
      · intro he
        rcases List.mem_append.mp he with he | he
        · exact hL he
        · exact hLp (List.mem_singleton.mp he).symm
      · intro he
        rcases List.mem_append.mp he with he | he
        · exact hR he
        · exact hopR (List.mem_singleton.mp he).symm

/-- Helper: a binary operator's pop step (precedence ≥ 2) keeps the output
free of parentheses and the remaining stack free of `RParen`: an `LParen`
(precedence 1) never passes the ≥ test, and `RParen` was never pushed. -/
theorem popGE_no_parens (p : Nat) (hp : 2 ≤ p) (out ops : List Token)
    (hL : Token.LParen ∉ out) (hR : Token.RParen ∉ out)
    (hops : Token.RParen ∉ ops) :
    Token.LParen ∉ out ++ (popGE p ops).1
    ∧ Token.RParen ∉ out ++ (popGE p ops).1
    ∧ Token.RParen ∉ (popGE p ops).2 := by
  refine ⟨?_, ?_, ?_⟩
  · intro he
    rcases List.mem_append.mp he with he | he
    · exact hL he
    · obtain ⟨_, hpe⟩ := (popGE_mem p ops).1 _ he
      have hpe2 : p ≤ 1 := hpe
      omega
  · intro he
    rcases List.mem_append.mp he with he | he
    · exact hR he
    · exact hops ((popGE_mem p ops).1 _ he).1
  · intro he
    exact hops ((popGE_mem p ops).2 _ he)

/-- Helper: the shunting-yard loop preserves paren-freeness of the output
and `RParen`-freeness of the operator stack through every step. -/
theorem toRpnAux_no_parens (ts : List Token) :
    ∀ out ops res,
      Token.LParen ∉ out → Token.RParen ∉ out → Token.RParen ∉ ops →
      toRpnAux ts out ops = .ok res →
      Token.LParen ∉ res ∧ Token.RParen ∉ res := by
  induction ts with
  | nil =>
    intro out ops res hL hR hops h
    exact drain_no_parens ops out res hops hL hR h
  | cons t rest ih =>
    intro out ops res hL hR hops h
    cases t with
    | Number q =>
      replace h : toRpnAux rest (out ++ [Token.Number q]) ops
          = Except.ok res := h
      refine ih _ _ _ ?_ ?_ hops h
      · intro he
        rcases List.mem_append.mp he with he | he
        · exact hL he
        · cases List.mem_singleton.mp he
      · intro he
        rcases List.mem_append.mp he with he | he
        · exact hR he
        · cases List.mem_singleton.mp he
    | LParen =>
      replace h : toRpnAux rest out (Token.LParen :: ops) = Except.ok res := h
      exact ih _ _ _ hL hR (by simp [hops]) h
    | UnaryMinus =>
      replace h : toRpnAux rest out (Token.UnaryMinus :: ops)
          = Except.ok res := h
      exact ih _ _ _ hL hR (by simp [hops]) h
    | Power =>
      replace h : toRpnAux rest out (Token.Power :: ops) = Except.ok res := h
      exact ih _ _ _ hL hR (by simp [hops]) h
    | RParen =>
      rw [toRpnAux] at h
      cases hrp : rparenLoop ops out with
      | error e => rw [hrp] at h; cases h
      | ok pair =>
        rw [hrp] at h
        obtain ⟨hL2, hR2, hop2⟩ :=
          rparenLoop_no_parens ops out pair.1 pair.2 hops hL hR (by rw [hrp])
        exact ih _ _ _ hL2 hR2 hop2 h
    | Plus =>
      replace h : toRpnAux rest (out ++ (popGE Token.Plus.precedence ops).1)
          (Token.Plus :: (popGE Token.Plus.precedence ops).2)
          = Except.ok res := h
      obtain ⟨h1, h2, h3⟩ :=
        popGE_no_parens Token.Plus.precedence (by decide) out ops hL hR hops
      refine ih _ _ _ h1 h2 ?_ h
      intro he
      rcases List.mem_cons.mp he with he | he
      · cases he
      · exact h3 he
    | Minus =>
      replace h : toRpnAux rest (out ++ (popGE Token.Minus.precedence ops).1)
          (Token.Minus :: (popGE Token.Minus.precedence ops).2)
          = Except.ok res := h
      obtain ⟨h1, h2, h3⟩ :=
        popGE_no_parens Token.Minus.precedence (by decide) out ops hL hR hops
      refine ih _ _ _ h1 h2 ?_ h
      intro he
      rcases List.mem_cons.mp he with he | he
      · cases he
      · exact h3 he
    | Multiply =>
      replace h : toRpnAux rest
          (out ++ (popGE Token.Multiply.precedence ops).1)
          (Token.Multiply :: (popGE Token.Multiply.precedence ops).2)
          = Except.ok res := h
      obtain ⟨h1, h2, h3⟩ :=
        popGE_no_parens Token.Multiply.precedence (by decide) out ops hL hR
          hops
      refine ih _ _ _ h1 h2 ?_ h
      intro he
      rcases List.mem_cons.mp he with he | he
      · cases he
      · exact h3 he
    | Divide =>
      replace h : toRpnAux rest (out ++ (popGE Token.Divide.precedence ops).1)
          (Token.Divide :: (popGE Token.Divide.precedence ops).2)
          = Except.ok res := h
      obtain ⟨h1, h2, h3⟩ :=
        popGE_no_parens Token.Divide.precedence (by decide) out ops hL hR hops
      refine ih _ _ _ h1 h2 ?_ h
      intro he
      rcases List.mem_cons.mp he with he | he
      · cases he
      · exact h3 he

/-- C9: a successful `to_rpn` result contains no parenthesis token. -/
theorem c9_no_parens_in_postfix (ts res : List Token)
    (h : to_rpn ts = .ok res) :
    Token.LParen ∉ res ∧ Token.RParen ∉ res :=
  toRpnAux_no_parens ts [] [] res (by simp) (by simp) (by simp) h

/-- C9 witness: the conversion of (1 + 2) is paren-free. -/
theorem c9_no_parens_in_postfix_witness :
    Token.LParen ∉ [Token.Number 1, Token.Number 2, Token.Plus]
    ∧ Token.RParen ∉ [Token.Number 1, Token.Number 2, Token.Plus] :=
  c9_no_parens_in_postfix
    [Token.LParen, Token.Number 1, Token.Plus, Token.Number 2, Token.RParen]
    [Token.Number 1, Token.Number 2, Token.Plus] (by rfl)

/-- Running parenthesis balance of a token sequence: +1 per `LParen`,
−1 per `RParen`. -/
def balanceOf (ts : List Token) : ℤ := (ts.map parenDelta).sum

/-- Helper: `validateAux` returns either `ok` or `UnmatchedParens`. -/
theorem validateAux_ok_or_unmatched (ts : List Token) : ∀ bal : ℤ,
    validateAux ts bal = .ok ()
    ∨ validateAux ts bal = .error CalcError.UnmatchedParens := by
  induction ts with
  | nil => intro bal; by_cases h : bal = 0 <;> simp [validateAux, h]
  | cons t rest ih =>
    intro bal
    by_cases h : bal + parenDelta t < 0
    · right; simp [validateAux, h]
    · have := ih (bal + parenDelta t)
      simpa [validateAux, h] using this

/-- Helper: `validateAux` succeeds from balance `bal ≥ 0` iff the running
balance never goes negative and ends at zero. -/
theorem validateAux_ok_iff (ts : List Token) : ∀ bal : ℤ, 0 ≤ bal →
    (validateAux ts bal = .ok () ↔
      (∀ k, 0 ≤ bal + balanceOf (ts.take k)) ∧ bal + balanceOf ts = 0) := by
  induction ts with
  | nil =>
    intro bal hbal
    constructor
    · intro h
      have hb : bal = 0 := by
        by_cases hb2 : bal = 0
        · exact hb2
        · simp [validateAux, hb2] at h
      refine ⟨fun k => ?_, by simp [balanceOf, hb]⟩
      simp [balanceOf, hb]
    · rintro ⟨_, h2⟩
      have hb : bal = 0 := by simpa [balanceOf] using h2
      simp [validateAux, hb]
  | cons t rest ih =>
    intro bal hbal
    by_cases h2 : bal + parenDelta t < 0
    · constructor
      · intro h; rw [validateAux] at h; simp [h2] at h
      · rintro ⟨hall, _⟩
        have h1 := hall 1
        simp [balanceOf] at h1
        omega
    · push_neg at h2
      have heq : validateAux (t :: rest) bal
          = validateAux rest (bal + parenDelta t) := by
        rw [validateAux]
        simp [not_lt.mpr h2]
      rw [heq, ih (bal + parenDelta t) h2]
      constructor
      · rintro ⟨hall, hsum⟩
        refine ⟨fun k => ?_, ?_⟩
        · cases k with
          | zero => simpa [balanceOf] using hbal
          | succ k =>
            have h3 := hall k
            simp [balanceOf, List.take_succ_cons] at h3 ⊢
            omega
        · simp [balanceOf] at hsum ⊢
          omega
      · rintro ⟨hall, hsum⟩
        refine ⟨fun k => ?_, ?_⟩
        · have h3 := hall (k + 1)
          simp [balanceOf, List.take_succ_cons] at h3 ⊢
          omega
        · simp [balanceOf] at hsum ⊢
          omega

/-- Helper: the balance equals the `LParen` count minus the `RParen`
count. -/
theorem balanceOf_counts (ts : List Token) :
    balanceOf ts
      = (ts.count Token.LParen : ℤ) - (ts.count Token.RParen : ℤ) := by
  induction ts with
  | nil => simp [balanceOf]
  | cons t rest ih =>
    rw [balanceOf] at ih ⊢
    simp only [List.map_cons, List.sum_cons, List.count_cons]
    cases t <;> simp [parenDelta] <;> omega

/-- Helper: `validate_parens` succeeds iff no prefix (all of which arise as
`take k` for `k ≤ length`) has more `RParen` than `LParen` and the total
counts agree. -/
theorem validate_parens_ok_iff_counts (ts : List Token) :
    validate_parens ts = .ok () ↔
      ((∀ k ∈ List.range (ts.length + 1),
          ¬ (ts.take k).count Token.LParen < (ts.take k).count Token.RParen)
        ∧ ts.count Token.LParen = ts.count Token.RParen) := by
  rw [validate_parens, validateAux_ok_iff ts 0 le_rfl]
  constructor
  · rintro ⟨hall, hsum⟩
    refine ⟨?_, ?_⟩
    · intro k _ hlt
      have h1 := hall k
      rw [balanceOf_counts] at h1
      omega
    · have h2 := hsum
      rw [balanceOf_counts] at h2
      omega
  · rintro ⟨hall, hsum⟩
    refine ⟨fun k => ?_, ?_⟩
    · rcases le_or_lt k ts.length with hk | hk
      · have h2 := hall k (List.mem_range.mpr (by omega))
        rw [balanceOf_counts]
        omega
      · have h2 := hall ts.length (List.mem_range.mpr (by omega))
        simp only [List.take_length] at h2
        have he : ts.take k = ts := List.take_of_length_le (le_of_lt hk)
        rw [he, balanceOf_counts]
        omega
    · rw [balanceOf_counts]
      omega

/-- C5: `validate_parens` fails with `UnmatchedParens` iff some prefix has
more `RParen` than `LParen` tokens or the total counts differ (prefixes are
exactly `take k` for `k ≤ length`, hence the bounded quantifier);
otherwise it returns `ok`, regardless of non-parenthesis tokens. -/
theorem c5_validate_parens_iff (ts : List Token) :
    (validate_parens ts = .error CalcError.UnmatchedParens ↔
      ((∃ k ∈ List.range (ts.length + 1),
          (ts.take k).count Token.LParen < (ts.take k).count Token.RParen)
        ∨ ts.count Token.LParen ≠ ts.count Token.RParen))
    ∧ (¬ ((∃ k ∈ List.range (ts.length + 1),
          (ts.take k).count Token.LParen < (ts.take k).count Token.RParen)
        ∨ ts.count Token.LParen ≠ ts.count Token.RParen) →
      validate_parens ts = .ok ()) := by
  have hok := validate_parens_ok_iff_counts ts
  have hdich : validate_parens ts = .ok ()
      ∨ validate_parens ts = .error CalcError.UnmatchedParens :=
    validateAux_ok_or_unmatched ts 0
  constructor
  · constructor
    · intro herr
      by_contra hnp
      push_neg at hnp
      have hko := hok.mpr ⟨fun k hk => not_lt.mpr (hnp.1 k hk), hnp.2⟩
      cases hko.symm.trans herr
    · intro hp
      rcases hdich with hko | hke
      · exfalso
        obtain ⟨hall, heq⟩ := hok.mp hko
        rcases hp with ⟨k, hk, hlt⟩ | hne
        · exact hall k hk hlt
        · exact hne heq
      · exact hke
  · intro hnp
    push_neg at hnp
    exact hok.mpr ⟨fun k hk => not_lt.mpr (hnp.1 k hk), hnp.2⟩

/-- C5 witness: a bare `RParen` fails, a matched pair succeeds. -/
theorem c5_validate_parens_iff_witness :
    validate_parens [Token.RParen] = .error CalcError.UnmatchedParens
    ∧ validate_parens [Token.LParen, Token.RParen] = .ok () := by
  constructor
  · exact (c5_validate_parens_iff [Token.RParen]).1.mpr
      (Or.inl ⟨1, by decide, by decide⟩)
  · exact (c5_validate_parens_iff [Token.LParen, Token.RParen]).2 (by decide)

/-- Helper: `get_fnum` fails only with `InvalidToken` carrying its input. -/
theorem get_fnum_error (l : List Char) (e : CalcError)
    (h : get_fnum l = .error e) : e = CalcError.InvalidToken (String.mk l) := by
  rw [get_fnum] at h
  cases hp : parseDecimal l with
  | some q => rw [hp] at h; cases h
  | none =>
    rw [hp] at h
    injection h with h2
    exact h2.symm

/-- Helper: `get_token` fails only with `InvalidToken`. -/
theorem get_token_error (c : Char) (e : CalcError)
    (h : get_token c = .error e) : ∃ m, e = CalcError.InvalidToken m := by
  rw [get_token] at h
  split_ifs at h
  all_goals first
    | exact Except.noConfusion h
    | (injection h with h2; exact ⟨String.mk [c], h2.symm⟩)

/-- Helper: `get_token` never succeeds on an exponent marker. -/
theorem get_token_ok_not_exp (c : Char) (t : Token)
    (h : get_token c = .ok t) : c ≠ 'e' ∧ c ≠ 'E' := by
  constructor
  · rintro rfl
    rw [show get_token 'e'
      = .error (.InvalidToken (String.mk ['e'])) from rfl] at h
    cases h
  · rintro rfl
    rw [show get_token 'E'
      = .error (.InvalidToken (String.mk ['E'])) from rfl] at h
    cases h

/-- Helper: `get_token` never produces a `Number` token. -/
theorem get_token_ok_not_number (c : Char) (t : Token)
    (h : get_token c = .ok t) : ∀ q : ℚ, t ≠ Token.Number q := by
  intro q hq
  subst hq
  rw [get_token] at h
  split_ifs at h <;> cases h

/-- Helper: a failing buffer flush fails with `InvalidToken`. -/
theorem flushNum_error (buf : List Char) (acc : List Token) (e : CalcError)
    (h : flushNum buf acc = .error e) : ∃ m, e = CalcError.InvalidToken m := by
  rw [flushNum] at h
  by_cases hb : buf.isEmpty = true
  · rw [if_pos hb] at h; cases h
  · rw [if_neg hb] at h
    cases hgf : get_fnum buf with
    | error e2 =>
      simp only [hgf] at h
      injection h with h2
      subst h2
      exact ⟨String.mk buf, get_fnum_error buf e2 hgf⟩
    | ok q =>
      simp only [hgf] at h
      exact Except.noConfusion h

/-- Helper: a successful flush appends at most one `Number`, parsed from the
buffer by `get_fnum`. -/
theorem flushNum_ok_mem (buf : List Char) (acc acc2 : List Token)
    (h : flushNum buf acc = .ok acc2) :
    ∀ t ∈ acc2, t ∈ acc ∨ ∃ q, t = Token.Number q ∧ get_fnum buf = .ok q := by
  rw [flushNum] at h
  by_cases hb : buf.isEmpty = true
  · rw [if_pos hb] at h
    injection h with h2
    subst h2
    intro t ht
    exact Or.inl ht
  · rw [if_neg hb] at h
    intro t ht
    cases hgf : get_fnum buf with
    | error e =>
      simp only [hgf] at h
      exact Except.noConfusion h
    | ok q =>
      simp only [hgf] at h
      injection h with h2
      subst h2
      rcases List.mem_append.mp ht with ht2 | ht2
      · exact Or.inl ht2
      · exact Or.inr ⟨q, List.mem_singleton.mp ht2, rfl⟩

/-- Helper: every `Number` a successful tokenization emits was parsed by
`get_fnum` from a buffer of digits and dots (given the invariants on the
current buffer and accumulator). -/
theorem tokenizeAux_numbers (cs : List Char) :
    ∀ buf acc ts,
      (∀ c ∈ buf, c.isDigit = true ∨ c = '.') →
      (∀ q : ℚ, Token.Number q ∈ acc →
        ∃ b : List Char, (∀ c ∈ b, c.isDigit = true ∨ c = '.')
          ∧ get_fnum b = .ok q) →
      tokenizeAux cs buf acc = .ok ts →
      ∀ q : ℚ, Token.Number q ∈ ts →
        ∃ b : List Char, (∀ c ∈ b, c.isDigit = true ∨ c = '.')
          ∧ get_fnum b = .ok q := by
  induction cs with
  | nil =>
    intro buf acc ts hbuf hacc h q hq
    rcases flushNum_ok_mem buf acc ts h (Token.Number q) hq
      with hmem | ⟨q2, heq, hgf⟩
    · exact hacc q hmem
    · injection heq with h2
      subst h2
      exact ⟨buf, hbuf, hgf⟩
  | cons c cs ih =>
    intro buf acc ts hbuf hacc h q hq
    rw [tokenizeAux] at h
    by_cases hd : (c.isDigit || c = '.') = true
    · rw [if_pos hd] at h
      refine ih (buf ++ [c]) acc ts ?_ hacc h q hq
      intro x hx
      rcases List.mem_append.mp hx with hx | hx
      · exact hbuf x hx
      · have hxc : x = c := List.mem_singleton.mp hx
        subst hxc
        have hd2 := hd
        rw [Bool.or_eq_true] at hd2
        rcases hd2 with h2 | h2
        · exact Or.inl h2
        · exact Or.inr (of_decide_eq_true h2)
    · rw [if_neg hd] at h
      cases hfl : flushNum buf acc with
      | error e =>
        simp only [hfl] at h
        exact Except.noConfusion h
      | ok acc2 =>
        simp only [hfl] at h
        have hacc2 : ∀ q2 : ℚ, Token.Number q2 ∈ acc2 →
            ∃ b : List Char, (∀ c2 ∈ b, c2.isDigit = true ∨ c2 = '.')
              ∧ get_fnum b = .ok q2 := by
          intro q2 hq2
          rcases flushNum_ok_mem buf acc acc2 hfl _ hq2
            with hm | ⟨q3, heq, hgf⟩
          · exact hacc q2 hm
          · injection heq with h3
            subst h3
            exact ⟨buf, hbuf, hgf⟩
        by_cases hw : c.isWhitespace = true
        · rw [if_pos hw] at h
          exact ih [] acc2 ts (by simp) hacc2 h q hq
        · rw [if_neg hw] at h
          cases hgt : get_token c with
          | error e =>
            simp only [hgt] at h
            exact Except.noConfusion h
          | ok t =>
            simp only [hgt] at h
            refine ih [] (acc2 ++ [t]) ts (by simp) ?_ h q hq
            intro q2 hq2
            rcases List.mem_append.mp hq2 with hm | hm
            · exact hacc2 q2 hm
            · exact absurd (List.mem_singleton.mp hm).symm
                (get_token_ok_not_number c t hgt q2)

/-- Helper: every error of the tokenizer loop is an `InvalidToken`. -/
theorem tokenizeAux_error_invalid (cs : List Char) :
    ∀ buf acc e, tokenizeAux cs buf acc = .error e →
      ∃ m, e = CalcError.InvalidToken m := by
  induction cs with
  | nil => intro buf acc e h; exact flushNum_error buf acc e h
  | cons c cs ih =>
    intro buf acc e h
    rw [tokenizeAux] at h
    by_cases hd : (c.isDigit || c = '.') = true
    · rw [if_pos hd] at h
      exact ih _ _ _ h
    · rw [if_neg hd] at h
      cases hfl : flushNum buf acc with
      | error e2 =>
        simp only [hfl] at h
        injection h with h2
        subst h2
        exact flushNum_error buf acc _ hfl
      | ok acc2 =>
        simp only [hfl] at h
        by_cases hw : c.isWhitespace = true
        · rw [if_pos hw] at h
          exact ih _ _ _ h
        · rw [if_neg hw] at h
          cases hgt : get_token c with
          | error e2 =>
            simp only [hgt] at h
            injection h with h2
            subst h2
            exact get_token_error c _ hgt
          | ok t =>
            simp only [hgt] at h
            exact ih _ _ _ h

/-- Helper: an exponent marker anywhere in the remaining input forces the
tokenizer loop to fail. -/
theorem tokenizeAux_error_of_exp (cs : List Char) :
    ∀ buf acc, (∃ c ∈ cs, c = 'e' ∨ c = 'E') →
      ∃ e, tokenizeAux cs buf acc = .error e := by
  induction cs with
  | nil =>
    rintro buf acc ⟨c, hc, _⟩
    cases hc
  | cons c0 cs ih =>
    rintro buf acc ⟨c, hc, hce⟩
    have hflDich : (∃ e2, flushNum buf acc = .error e2)
        ∨ (∃ acc2, flushNum buf acc = .ok acc2) := by
      cases flushNum buf acc
      · exact Or.inl ⟨_, rfl⟩
      · exact Or.inr ⟨_, rfl⟩
    rw [tokenizeAux]
    rcases List.mem_cons.mp hc with rfl | hctail
    · have hd : ¬ ((c.isDigit || c = '.') = true) := by
        rcases hce with rfl | rfl <;> decide
      rw [if_neg hd]
      rcases hflDich with ⟨e2, hfl⟩ | ⟨acc2, hfl⟩
      · exact ⟨e2, by simp only [hfl]⟩
      · have hw : ¬ (c.isWhitespace = true) := by
          rcases hce with rfl | rfl <;> decide
        simp only [hfl]
        rw [if_neg hw]
        rcases hce with rfl | rfl
        · exact ⟨CalcError.InvalidToken (String.mk ['e']), rfl⟩
        · exact ⟨CalcError.InvalidToken (String.mk ['E']), rfl⟩
    · have hex : ∃ c2 ∈ cs, c2 = 'e' ∨ c2 = 'E' := ⟨c, hctail, hce⟩
      by_cases hd : (c0.isDigit || c0 = '.') = true
      · rw [if_pos hd]
        exact ih _ _ hex
      · rw [if_neg hd]
        rcases hflDich with ⟨e2, hfl⟩ | ⟨acc2, hfl⟩
        · exact ⟨e2, by simp only [hfl]⟩
        · simp only [hfl]
          by_cases hw : c0.isWhitespace = true
          · rw [if_pos hw]
            exact ih _ _ hex
          · rw [if_neg hw]
            have hgtDich : (∃ e2, get_token c0 = .error e2)
                ∨ (∃ t, get_token c0 = .ok t) := by
              cases get_token c0
              · exact Or.inl ⟨_, rfl⟩
              · exact Or.inr ⟨_, rfl⟩
            rcases hgtDich with ⟨e2, hgt⟩ | ⟨t, hgt⟩
            · exact ⟨e2, by simp only [hgt]⟩
            · simp only [hgt]
              exact ih _ _ hex

/-- Supporting lemma: any input containing an exponent marker `e`/`E` is
rejected with `InvalidToken` rather than parsed as scientific notation, and
every `Number` value in a successful tokenization was parsed by `get_fnum`
from a buffer of ASCII digits and dots.  This establishes the
exponent-rejection half of the spec's finiteness invariant; it does not
bound the magnitude of the parsed value — see the C4 theorem below for the
saturation counterexample. -/
theorem tokenize_numbers_from_digit_buffers (s : String) :
    ((∃ c ∈ s.data, c = 'e' ∨ c = 'E') →
      ∃ m, tokenize s = .error (CalcError.InvalidToken m))
    ∧ (∀ ts, tokenize s = .ok ts → ∀ q : ℚ, Token.Number q ∈ ts →
        ∃ buf : List Char, (∀ c ∈ buf, c.isDigit = true ∨ c = '.')
          ∧ get_fnum buf = .ok q) := by
  constructor
  · intro hex
    obtain ⟨e, he⟩ := tokenizeAux_error_of_exp s.data [] [] hex
    obtain ⟨m, hm⟩ := tokenizeAux_error_invalid s.data [] [] e he
    exact ⟨m, by rw [tokenize, he, hm]⟩
  · intro ts hts q hq
    exact tokenizeAux_numbers s.data [] [] ts (by simp) (by simp) hts q hq

/-- Supporting example: "1e10" is rejected with `InvalidToken`, and the
number emitted for "5" comes from a digits-and-dots buffer. -/
theorem tokenize_numbers_from_digit_buffers_example :
    (∃ m, tokenize "1e10" = .error (CalcError.InvalidToken m))
    ∧ ∃ buf : List Char, (∀ c ∈ buf, c.isDigit = true ∨ c = '.')
        ∧ get_fnum buf = .ok 5 := by
  constructor
  · exact (tokenize_numbers_from_digit_buffers "1e10").1 ⟨'e', by decide, Or.inl rfl⟩
  · refine (tokenize_numbers_from_digit_buffers "5").2 [Token.Number 5] ?_ 5
      (List.mem_singleton.mpr rfl)
    show flushNum ['5'] [] = _
    simp [flushNum, get_fnum, parseDecimal, digitsToNat]

set_option maxRecDepth 16000 in
set_option maxHeartbeats 2000000 in
/-- C4: the never-emits-Infinity half of the claim fails on the code.  The
310-digit literal `overflowLiteral` consists only of digits, so it stays in
the numeric-buffer path and `tokenize` succeeds; its exact value, computed
here in the rational model, is 10^309, proved to exceed 2^1024 and hence
every finite IEEE-754 double (the largest is (2^53 - 1) * 2^971 < 2^1024).
Rust's `str::parse::<f64>` saturates such out-of-range literals to
`f64::INFINITY` instead of failing, so the real tokenizer returns an `Ok`
token stream containing `Number(+inf)` on this input, contradicting the
claimed invariant.  The exponent-rejection half of the claim holds, per
`tokenize_numbers_from_digit_buffers` above. -/
theorem c4_tokenize_accepts_overflow_literal :
    tokenize overflowLiteral = .ok [Token.Number ((10 : ℚ) ^ 309)]
    ∧ (2 : ℚ) ^ 1024 ≤ (10 : ℚ) ^ 309 := by
  have hd : digitsToNat overflowChars = 10 ^ 309 := by decide
  have hval : (digitsToNat overflowChars : ℚ)
      + (digitsToNat ([] : List Char) : ℚ) / (10 : ℚ) ^ (0 : ℕ)
      = (10 : ℚ) ^ 309 := by
    rw [hd]
    norm_num [digitsToNat]
  constructor
  · have htok : tokenize overflowLiteral
        = .ok [Token.Number ((digitsToNat overflowChars : ℚ)
            + (digitsToNat ([] : List Char) : ℚ) / (10 : ℚ) ^ (0 : ℕ))] := rfl
    rw [htok, hval]
  · norm_num
